import Mathlib

/-!
# Fan-out relay (`main.go`): registry, connection handlers and dispatcher

The program has three pieces of shared state, all package-level variables:

* `clients   = make(map[*websocket.Conn]bool)`: the registry;
* `broadcast = make(chan []byte)`: the dispatch queue, a channel created
  without a capacity argument;
* `mu sync.RWMutex`: the reader/writer lock guarding `clients`.

One goroutine runs `handleConnections` per accepted connection and one
goroutine runs `handleMessages`.  The embedding is a small-step machine: every
thread has a program counter naming the source line it is about to execute,
and one `Action` executes that line.  Everything the environment decides (which
connection an upgrade yields, what a read or a write returns, which key the
`range` over the map yields next) is carried by the action.

What is taken from the Go runtime and the websocket library:

* `mu.Lock()` returns only when no goroutine holds `mu` in either mode, and
  `mu.RLock()` only when no goroutine holds it exclusively.  A read lock is not
  upgraded: `Lock` called by a goroutine that holds a read lock waits for that
  read lock like for any other.  (Go also holds back an `RLock` while a `Lock`
  is waiting; the machine does not, which only adds runs.)
* a send on `broadcast` completes when the buffer has room or a receiver takes
  the value; the buffer has `broadcastCap` places.
* `ReadMessage` and `WriteMessage` may return an error at any time; `Close`
  never blocks.  The machine does not force a read or write on a closed
  transport to fail, which again only adds runs.
-/

namespace Relay

/-- A connection, `*websocket.Conn`: pointer identity is all the program uses. -/
abbrev Conn := Nat

/-- A message payload, `[]byte`; the program never inspects it. -/
abbrev Msg := List Nat

/-- Capacity of `broadcast`: `make(chan []byte)` has no capacity argument, and
Go gives such a channel capacity zero. -/
def broadcastCap : Nat := 0

/-- Program counter of a goroutine running `handleConnections` for one
connection.  Each constructor names the line about to run. -/
inductive HPc
  /-- no goroutine exists for this connection yet (before line 23) -/
  | fresh
  /-- line 30, `mu.Lock()` -/
  | lockReg
  /-- line 31, `clients[ws] = true` -/
  | reg
  /-- line 32, `mu.Unlock()` -/
  | unlockReg
  /-- line 35, `ws.ReadMessage()` -/
  | read
  /-- line 43, `broadcast <- msg` -/
  | send (m : Msg)
  /-- line 37, `mu.Lock()` -/
  | lockDel
  /-- line 38, `delete(clients, ws)` -/
  | del
  /-- line 39, `mu.Unlock()` -/
  | unlockDel
  /-- the deferred `ws.Close()` of line 28, run after the `break` of line 40 -/
  | close
  /-- the goroutine has returned -/
  | done
  deriving DecidableEq, Repr

/-- Program counter of the goroutine running `handleMessages`.  `seen` is the
list of keys the `range` of line 52 produced in earlier iterations of this
pass, latest first; inside the loop body `c` is the key of the current
iteration. -/
inductive DPc
  /-- line 49, `msg := <-broadcast` -/
  | recv
  /-- line 51, `mu.RLock()` -/
  | rlock (m : Msg)
  /-- line 52, the head of `for client := range clients` -/
  | range (m : Msg) (seen : List Conn)
  /-- line 53, `client.WriteMessage(websocket.TextMessage, msg)` -/
  | write (m : Msg) (c : Conn) (seen : List Conn)
  /-- line 55, `client.Close()` -/
  | close (m : Msg) (c : Conn) (seen : List Conn)
  /-- line 56, `mu.Lock()` -/
  | lock (m : Msg) (c : Conn) (seen : List Conn)
  /-- line 57, `delete(clients, client)` -/
  | del (m : Msg) (c : Conn) (seen : List Conn)
  /-- line 58, `mu.Unlock()` -/
  | unlock (m : Msg) (c : Conn) (seen : List Conn)
  /-- line 61, `mu.RUnlock()` -/
  | runlock (m : Msg)
  deriving DecidableEq, Repr

/-- The shared state of the process together with every thread's position. -/
structure State where
  /-- keys of `clients`; line 31 is the only store and always stores `true` -/
  clients : Finset Conn
  /-- messages buffered inside `broadcast` -/
  queue : List Msg
  /-- `mu`: number of read locks currently held -/
  readers : Nat
  /-- `mu`: whether the exclusive lock is currently held -/
  writer : Bool
  /-- connections on which `Close` has been called -/
  closed : Finset Conn
  /-- where the handler goroutine of each connection stands -/
  hpc : Conn → HPc
  /-- where the dispatcher goroutine stands -/
  disp : DPc

/-- State at the moment `main` has started `handleMessages` (line 72). -/
def init : State :=
  { clients := ∅, queue := [], readers := 0, writer := false, closed := ∅,
    hpc := fun _ => HPc.fresh, disp := DPc.recv }

/-- Move the handler of connection `c` to program counter `p`. -/
def setH (s : State) (c : Conn) (p : HPc) : State :=
  { s with hpc := fun x => if x = c then p else s.hpc x }

/-- The builtin `delete(m, key)` on the key set of the map: the key is removed
when present and nothing happens otherwise; the builtin has no failure case. -/
def delete (clients : Finset Conn) (c : Conn) : Finset Conn := clients.erase c

/-- What the environment lets a handler goroutine do next. -/
inductive HAct
  /-- line 23 returns a new connection and line 28 registers the deferred close -/
  | upgrade
  /-- run the line the goroutine stands at (lines 30, 31, 32, 37, 38, 39, deferred 28) -/
  | line
  /-- line 35 returns message `m` without error -/
  | readOk (m : Msg)
  /-- line 35 returns an error -/
  | readErr
  /-- line 43 completes by placing the message in the channel buffer -/
  | sendBuf
  deriving DecidableEq, Repr

/-- What the environment lets the dispatcher goroutine do next. -/
inductive DAct
  /-- line 49 takes the oldest buffered message -/
  | recvBuf
  /-- run the line the goroutine stands at (lines 51, 55, 56, 57, 58, 61) -/
  | line
  /-- line 52: the `range` yields key `c` -/
  | next (c : Conn)
  /-- line 52: the `range` is exhausted -/
  | exit
  /-- line 53 returns nil -/
  | writeOk
  /-- line 53 returns an error -/
  | writeErr
  deriving DecidableEq, Repr

/-- One step of the goroutine running `handleConnections` for connection `c`.
`mu.Lock()` returns only when nobody holds the lock in either mode. -/
def handleConnections (c : Conn) (a : HAct) (s : State) : Option State :=
  match a, s.hpc c with
  | .upgrade, .fresh => some (setH s c .lockReg)
  | .line, .lockReg =>
      if s.readers = 0 ∧ s.writer = false then some { setH s c .reg with writer := true }
      else none
  | .line, .reg => some { setH s c .unlockReg with clients := insert c s.clients }
  | .line, .unlockReg => some { setH s c .read with writer := false }
  | .readOk m, .read => some (setH s c (.send m))
  | .readErr, .read => some (setH s c .lockDel)
  | .sendBuf, .send m =>
      if s.queue.length < broadcastCap then some { setH s c .read with queue := s.queue ++ [m] }
      else none
  | .line, .lockDel =>
      if s.readers = 0 ∧ s.writer = false then some { setH s c .del with writer := true }
      else none
  | .line, .del => some { setH s c .unlockDel with clients := delete s.clients c }
  | .line, .unlockDel => some { setH s c .close with writer := false }
  | .line, .close => some { setH s c .done with closed := insert c s.closed }
  | _, _ => none

/-- One step of the goroutine running `handleMessages`.  `mu.RLock()` returns
only when the exclusive lock is not held; `mu.Lock()` returns only when nobody
holds the lock in either mode, the caller's own read lock included.  The
`range` yields a key that is in the map and was not yielded before, and ends
when no such key is left. -/
def handleMessages (a : DAct) (s : State) : Option State :=
  match a, s.disp with
  | .recvBuf, .recv =>
      match s.queue with
      | m :: rest => some { s with queue := rest, disp := .rlock m }
      | [] => none
  | .line, .rlock m =>
      if s.writer = false then some { s with readers := s.readers + 1, disp := .range m [] }
      else none
  | .next c, .range m seen =>
      if c ∈ s.clients ∧ c ∉ seen then some { s with disp := .write m c seen }
      else none
  | .exit, .range m seen =>
      if ∀ c ∈ s.clients, c ∈ seen then some { s with disp := .runlock m }
      else none
  | .writeOk, .write m c seen => some { s with disp := .range m (c :: seen) }
  | .writeErr, .write m c seen => some { s with disp := .close m c seen }
  | .line, .close m c seen => some { s with closed := insert c s.closed, disp := .lock m c seen }
  | .line, .lock m c seen =>
      if s.readers = 0 ∧ s.writer = false then some { s with writer := true, disp := .del m c seen }
      else none
  | .line, .del m c seen => some { s with clients := delete s.clients c, disp := .unlock m c seen }
  | .line, .unlock m c seen => some { s with writer := false, disp := .range m (c :: seen) }
  | .line, .runlock _ => some { s with readers := s.readers - 1, disp := .recv }
  | _, _ => none

/-- Lines 43 and 49 meeting on an empty channel: the handler of `c` stands at
`broadcast <- msg`, the dispatcher at `<-broadcast`, and the value is handed
over directly. -/
def handoff (c : Conn) (s : State) : Option State :=
  match s.hpc c, s.disp with
  | .send m, .recv =>
      if s.queue = [] then some { setH s c .read with disp := .rlock m } else none
  | _, _ => none

/-- One scheduling decision together with the environment's answer. -/
inductive Action
  /-- line 23 fails: lines 25 and 26 log and return -/
  | upgradeErr
  /-- the handler goroutine of connection `c` moves -/
  | h (c : Conn) (a : HAct)
  /-- the dispatcher goroutine moves -/
  | d (a : DAct)
  /-- a handler's send and the dispatcher's receive complete together -/
  | handoff (c : Conn)
  deriving DecidableEq, Repr

/-- One step of the whole process; `none` when the chosen thread is blocked or
the environment's answer does not fit the line it stands at. -/
def step (a : Action) (s : State) : Option State :=
  match a with
  | .upgradeErr => some s
  | .h c x => handleConnections c x s
  | .d x => handleMessages x s
  | .handoff c => handoff c s

/-- Run a schedule from a state. -/
def run : List Action → State → Option State
  | [], s => some s
  | a :: rest, s => (step a s).bind (run rest)

/-- States the process can be in. -/
def Reachable (s : State) : Prop := ∃ acts, run acts init = some s

/-- Calls the program makes that are visible from outside the threads. -/
inductive Ev
  /-- line 31 -/
  | register (c : Conn)
  /-- line 38 or line 57 -/
  | delete (c : Conn)
  /-- `Close` called on the transport of `c` (line 55 or deferred line 28) -/
  | close (c : Conn)
  /-- line 49 returned `m` -/
  | deq (m : Msg)
  /-- line 53 called on `c` with payload `m`; `ok` tells whether it returned nil -/
  | write (c : Conn) (m : Msg) (ok : Bool)
  deriving DecidableEq, Repr

/-- The call made by action `a` in state `s`, if it makes one. -/
def obs (a : Action) (s : State) : List Ev :=
  match a with
  | .h c .line =>
      match s.hpc c with
      | .reg => [.register c]
      | .del => [.delete c]
      | .close => [.close c]
      | _ => []
  | .d .line =>
      match s.disp with
      | .close _ c _ => [.close c]
      | .del _ c _ => [.delete c]
      | _ => []
  | .d .recvBuf =>
      match s.queue with
      | m :: _ => [.deq m]
      | [] => []
  | .d .writeOk =>
      match s.disp with
      | .write m c _ => [.write c m true]
      | _ => []
  | .d .writeErr =>
      match s.disp with
      | .write m c _ => [.write c m false]
      | _ => []
  | .handoff c =>
      match s.hpc c with
      | .send m => [.deq m]
      | _ => []
  | _ => []

/-- The calls made along a schedule, oldest first. -/
def trace : List Action → State → List Ev
  | [], _ => []
  | a :: rest, s =>
      match step a s with
      | some s' => obs a s ++ trace rest s'
      | none => []

/-! ## Invariants of the reachable states -/

/-- Handler positions at which the goroutine holds the exclusive lock. -/
def HPc.crit : HPc → Bool
  | .reg | .unlockReg | .del | .unlockDel => true
  | _ => false

/-- Handler positions between the store of line 31 and the delete of line 38. -/
def HPc.member : HPc → Bool
  | .unlockReg | .read | .send _ | .lockDel | .del => true
  | _ => false

/-- Dispatcher positions at which it holds the read lock. -/
def DPc.inPass : DPc → Bool
  | .recv | .rlock _ => false
  | _ => true

/-- Dispatcher positions after the `mu.Lock()` of line 56 has returned. -/
def DPc.pastLock : DPc → Bool
  | .del .. | .unlock .. => true
  | _ => false

/-- Keys the `range` of the current pass has produced, the current one included. -/
def DPc.seen : DPc → List Conn
  | .range _ l => l
  | .write _ c l | .close _ c l | .lock _ c l | .del _ c l | .unlock _ c l => c :: l
  | _ => []

/-- Replace the position of connection `c`. -/
def upd (hpc : Conn → HPc) (c : Conn) (p : HPc) : Conn → HPc :=
  fun x => if x = c then p else hpc x

/-- The exclusive lock is held whenever a handler is between its `Lock` and
its `Unlock`, at most one handler is, and when the lock is held some handler
is. -/
def CritOk (hpc : Conn → HPc) (w : Bool) : Prop :=
  (∀ x, (hpc x).crit = true → w = true) ∧
    (∀ x y, (hpc x).crit = true → (hpc y).crit = true → x = y) ∧
    (w = true → ∃ x, (hpc x).crit = true)

/-- The registry holds exactly the connections whose handler is between the
store of line 31 and the delete of line 38. -/
def MemOk (hpc : Conn → HPc) (cl : Finset Conn) : Prop :=
  ∀ x, x ∈ cl ↔ (hpc x).member = true

/-- What holds in every reachable state. -/
structure Inv (s : State) : Prop where
  /-- nothing is ever buffered in `broadcast` -/
  queue : s.queue = []
  /-- the dispatcher is the only reader of `mu` -/
  readers : s.readers = if s.disp.inPass then 1 else 0
  /-- lines 57 and 58 are never reached -/
  pastLock : s.disp.pastLock = false
  /-- handlers respect the exclusive lock -/
  crit : CritOk s.hpc s.writer
  /-- the exclusive lock excludes readers -/
  excl : s.writer = true → s.readers = 0
  /-- registry membership follows the handlers' positions -/
  mem : MemOk s.hpc s.clients
  /-- the `range` only yields keys of the map -/
  seenSub : ∀ c ∈ s.disp.seen, c ∈ s.clients
  /-- the `range` yields no key twice -/
  seenNodup : s.disp.seen.Nodup

/-! ## Observations -/

/-- State reached from `init` by a schedule (`init` itself when the schedule cannot run). -/
def stateAfter (acts : List Action) : State := (run acts init).getD init

/-- Messages taken from `broadcast`, oldest first. -/
def deqs : List Ev → List Msg
  | [] => []
  | .deq m :: rest => m :: deqs rest
  | _ :: rest => deqs rest

/-- Payloads passed to `WriteMessage` on connection `c`, oldest first. -/
def writesTo (c : Conn) : List Ev → List Msg
  | [] => []
  | .write x m _ :: rest => if x = c then m :: writesTo c rest else writesTo c rest
  | _ :: rest => writesTo c rest

/-- Connections for which line 23 succeeded, oldest first. -/
def upgrades : List Action → List Conn
  | [] => []
  | .h c .upgrade :: rest => c :: upgrades rest
  | _ :: rest => upgrades rest

/-- Handler positions reachable without a failed read. -/
def HPc.alive : HPc → Bool
  | .lockDel | .del | .unlockDel | .close | .done => false
  | _ => true

/-- The dispatcher's steps of one pass in which the `range` yields the keys in
the given order and every write returns nil, up to the end of the loop. -/
def passActs : List Conn → List Action
  | [] => [.d .exit]
  | c :: rest => .d (.next c) :: .d .writeOk :: passActs rest

/-- Every `WriteMessage` call in `W` carried `m` and returned nil, went to a
connection in `S`, and every connection in `S` got exactly one. -/
def Written (m : Msg) (S : Conn → Prop) (W : List Ev) : Prop :=
  (∀ c m' ok, Ev.write c m' ok ∈ W → m' = m ∧ ok = true ∧ S c) ∧
    ∀ c, S c → W.count (.write c m true) = 1

/-- How far a pass for message `m` over registry `cl` has come when the
dispatcher stands where it does in `t` and `W` is what was called so far. -/
def PassInv (m : Msg) (cl : Finset Conn) (t : State) (W : List Ev) : Prop :=
  match t.disp with
  | .range m' seen => m' = m ∧ t.clients = cl ∧ Written m (fun c => c ∈ seen) W
  | .write m' _ seen => m' = m ∧ t.clients = cl ∧ Written m (fun c => c ∈ seen) W
  | .runlock m' => m' = m ∧ t.clients = cl ∧ Written m (fun c => c ∈ cl) W
  | .rlock _ => False
  | _ => True

/-! ## Concrete schedules -/

/-- Connections 1 and 2 register, 1 sends "hi", the dispatcher takes it and
acquires the read lock, and the `range` yields 1 first. -/
def writeBothActs : List Action :=
  [.h 1 .upgrade, .h 1 .line, .h 1 .line, .h 1 .line,
   .h 2 .upgrade, .h 2 .line, .h 2 .line, .h 2 .line,
   .h 1 (.readOk [104, 105]), .handoff 1, .d .line, .d (.next 1)]

/-- After `writeBothActs` the write to 1 returns an error and the dispatcher
runs line 55. -/
def failActs : List Action := writeBothActs ++ [.d .writeErr, .d .line]

/-- Connection 1 registers and sends "hi"; the dispatcher takes it, acquires
the read lock and the `range` yields 1. -/
def writeActs : List Action :=
  [.h 1 .upgrade, .h 1 .line, .h 1 .line, .h 1 .line,
   .h 1 (.readOk [104, 105]), .handoff 1, .d .line, .d (.next 1)]

/-- After `writeActs` the write to 1 returns an error and the dispatcher runs
line 55. -/
def closeActs : List Action := writeActs ++ [.d .writeErr, .d .line]

/-- After `closeActs` the read of connection 1 returns an error. -/
def closeReadErrActs : List Action := closeActs ++ [.h 1 .readErr]

/-- Connections 1 and 2 register; 1 sends `[1]`, which is written to 2 and
to 1; then 1 sends `[2]`, the `range` yields 1 first and the write to 1
returns an error. -/
def secondPassActs : List Action :=
  [.h 1 .upgrade, .h 1 .line, .h 1 .line, .h 1 .line,
   .h 2 .upgrade, .h 2 .line, .h 2 .line, .h 2 .line,
   .h 1 (.readOk [1]), .handoff 1, .d .line,
   .d (.next 2), .d .writeOk, .d (.next 1), .d .writeOk, .d .exit, .d .line,
   .h 1 (.readOk [2]), .handoff 1, .d .line, .d (.next 1), .d .writeErr]

/-- Connections 1 and 2 register, the read of 1 fails and its handler acquires
the exclusive lock: the handler of 1 stands at line 38. -/
def readErrActs : List Action :=
  [.h 1 .upgrade, .h 1 .line, .h 1 .line, .h 1 .line,
   .h 2 .upgrade, .h 2 .line, .h 2 .line, .h 2 .line, .h 1 .readErr, .h 1 .line]

/-- Connections 1, 2 and 3 are accepted and register, interleaved; connection
2 also reads a message. -/
def registerActs : List Action :=
  [.h 1 .upgrade, .h 2 .upgrade, .upgradeErr, .h 2 .line, .h 3 .upgrade, .h 2 .line, .h 2 .line,
   .h 1 .line, .h 1 .line, .h 2 (.readOk [7]), .h 1 .line, .h 3 .line, .h 3 .line]

/-- Connection 1 registers and sends `[1]`, which the dispatcher takes; then
connection 1 reads `[2]` and stands at line 43 while the dispatcher is still at
line 51. -/
def busyActs : List Action :=
  [.h 1 .upgrade, .h 1 .line, .h 1 .line, .h 1 .line, .h 1 (.readOk [1]), .handoff 1,
   .h 1 (.readOk [2])]

/-- Connection 1 registers, reads `[1]` and stands at line 43 while the
dispatcher waits at line 49. -/
def sendActs : List Action :=
  [.h 1 .upgrade, .h 1 .line, .h 1 .line, .h 1 .line, .h 1 (.readOk [1])]

/-- Connections 1 and 2 register, interleaved, and 1 reads the three bytes
"hi!"; the dispatcher waits at line 49. -/
def sendBothActs : List Action :=
  [.h 1 .upgrade, .h 2 .upgrade, .h 2 .line, .h 2 .line, .h 2 .line,
   .h 1 .line, .h 1 .line, .h 1 .line, .h 1 (.readOk [104, 105, 33])]

/-- Connections 1 and 2 register and 2 reads an empty message; the dispatcher
waits at line 49. -/
def sendEmptyActs : List Action :=
  [.h 1 .upgrade, .h 1 .line, .h 1 .line, .h 1 .line,
   .h 2 .upgrade, .h 2 .line, .h 2 .line, .h 2 .line, .h 2 (.readOk [])]

/-- After `failActs` (registry {1, 2}, the write to 1 has failed and line 55 has
run) the read of connection 2 returns an error. -/
def failReadErrActs : List Action := failActs ++ [.h 2 .readErr]

/-! ## Proofs of the invariants -/

@[simp] theorem mem_delete {cl : Finset Conn} {c x : Conn} :
    x ∈ delete cl c ↔ x ≠ c ∧ x ∈ cl := by
  simp [delete]

theorem critOk_same {hpc : Conn → HPc} {w : Bool} {c : Conn} {p : HPc}
    (h : CritOk hpc w) (hp : p.crit = (hpc c).crit) : CritOk (upd hpc c p) w := by
  obtain ⟨h1, h2, h3⟩ := h
  refine ⟨fun x hx => ?_, fun x y hx hy => ?_, fun hw => ?_⟩
  · by_cases hxc : x = c
    · subst hxc; simp [upd, hp] at hx; exact h1 x hx
    · simp [upd, hxc] at hx; exact h1 x hx
  · by_cases hxc : x = c <;> by_cases hyc : y = c
    · rw [hxc, hyc]
    · simp [upd, hxc, hyc, hp] at hx hy; rw [hxc]; exact h2 c y hx hy
    · simp [upd, hxc, hyc, hp] at hx hy; rw [hyc]; exact h2 x c hx hy
    · simp [upd, hxc, hyc] at hx hy; exact h2 x y hx hy
  · obtain ⟨x, hx⟩ := h3 hw
    refine ⟨x, ?_⟩
    by_cases hxc : x = c
    · subst hxc; simpa [upd, hp] using hx
    · simpa [upd, hxc] using hx

theorem critOk_lock {hpc : Conn → HPc} {c : Conn} {p : HPc}
    (h : CritOk hpc false) (hp : p.crit = true) : CritOk (upd hpc c p) true := by
  obtain ⟨h1, _, _⟩ := h
  have hno : ∀ x, (hpc x).crit = false := by
    intro x
    cases hx : (hpc x).crit
    · rfl
    · exact absurd (h1 x hx) (by simp)
  refine ⟨fun _ _ => rfl, fun x y hx hy => ?_, fun _ => ⟨c, by simp [upd, hp]⟩⟩
  by_cases hxc : x = c <;> by_cases hyc : y = c
  · rw [hxc, hyc]
  · simp [upd, hyc, hno] at hy
  · simp [upd, hxc, hno] at hx
  · simp [upd, hxc, hno] at hx

theorem critOk_unlock {hpc : Conn → HPc} {w : Bool} {c : Conn} {p : HPc}
    (h : CritOk hpc w) (hc : (hpc c).crit = true) (hp : p.crit = false) :
    CritOk (upd hpc c p) false := by
  obtain ⟨_, h2, _⟩ := h
  have hno : ∀ x, ((upd hpc c p) x).crit = false := by
    intro x
    by_cases hxc : x = c
    · simp [upd, hxc, hp]
    · cases hx : (hpc x).crit
      · simp [upd, hxc, hx]
      · exact absurd (h2 x c hx hc) hxc
  exact ⟨fun x hx => by simp [hno] at hx, fun x y hx _ => by simp [hno] at hx,
    fun hw => by simp at hw⟩

theorem memOk_same {hpc : Conn → HPc} {cl : Finset Conn} {c : Conn} {p : HPc}
    (h : MemOk hpc cl) (hp : p.member = (hpc c).member) : MemOk (upd hpc c p) cl := by
  intro x
  by_cases hxc : x = c
  · subst hxc; simp [upd, hp, h x]
  · simp [upd, hxc, h x]

theorem memOk_insert {hpc : Conn → HPc} {cl : Finset Conn} {c : Conn} {p : HPc}
    (h : MemOk hpc cl) (hp : p.member = true) : MemOk (upd hpc c p) (insert c cl) := by
  intro x
  by_cases hxc : x = c
  · subst hxc; simp [upd, hp]
  · simp [upd, hxc, h x]

theorem memOk_delete {hpc : Conn → HPc} {cl : Finset Conn} {c : Conn} {p : HPc}
    (h : MemOk hpc cl) (hp : p.member = false) : MemOk (upd hpc c p) (delete cl c) := by
  intro x
  by_cases hxc : x = c
  · subst hxc; simp [upd, hp]
  · simp [upd, hxc, h x]

theorem DPc.seen_of_not_inPass {d : DPc} (h : d.inPass = false) : d.seen = [] := by
  cases d <;> simp_all [DPc.inPass, DPc.seen]

theorem Inv.seen_nil {s : State} (hi : Inv s) (h0 : s.readers = 0) : s.disp.seen = [] := by
  apply DPc.seen_of_not_inPass
  have hr := hi.readers
  cases hd : s.disp.inPass
  · rfl
  · simp [hd, h0] at hr

theorem inv_init : Inv init := by
  constructor <;>
    simp [init, DPc.inPass, DPc.pastLock, HPc.crit, HPc.member, DPc.seen, CritOk, MemOk]

theorem inv_handleMessages {a : DAct} {s s' : State} (hi : Inv s)
    (h : handleMessages a s = some s') : Inv s' := by
  obtain ⟨hq, hr, hp, hc, he, hm, hs, hn⟩ := hi
  unfold handleMessages at h
  split at h <;> try split at h
  all_goals simp at h
  all_goals subst h
  all_goals constructor <;> simp_all [DPc.inPass, DPc.pastLock, DPc.seen]

theorem inv_handoff {c : Conn} {s s' : State} (hi : Inv s)
    (h : handoff c s = some s') : Inv s' := by
  unfold handoff at h
  split at h <;> try split at h
  all_goals simp at h
  subst h
  rename_i _ _ m h1 h2 h3
  obtain ⟨hq, hr, hp, hc, he, hm, hs, hn⟩ := hi
  exact ⟨hq, by simpa [setH, h2, DPc.inPass] using hr, rfl,
    critOk_same hc (by simp [h1, HPc.crit]), he, memOk_same hm (by simp [h1, HPc.member]),
    by simp [setH, DPc.seen], by simp [setH, DPc.seen]⟩

theorem inv_handleConnections {c : Conn} {a : HAct} {s s' : State} (hi : Inv s)
    (h : handleConnections c a s = some s') : Inv s' := by
  have hsn := hi.seen_nil
  unfold handleConnections at h
  split at h <;> try split at h
  all_goals simp at h
  all_goals subst h
  all_goals obtain ⟨hq, hr, hp, hc, he, hm, hs, hn⟩ := hi
  all_goals constructor
  all_goals try (first | exact hq | exact hr | exact hp | exact he | exact hs | exact hn)
  all_goals try (first
    | exact critOk_same hc (by simp [*, HPc.crit])
    | exact memOk_same hm (by simp [*, HPc.member])
    | exact critOk_unlock hc (by simp [*, HPc.crit]) (by simp [HPc.crit])
    | exact memOk_insert hm (by simp [HPc.member])
    | exact memOk_delete hm (by simp [HPc.member])
    | exact critOk_lock (by rename_i hl; rw [hl.2] at hc; exact hc) (by simp [HPc.crit])
    | exact fun x hx => Finset.mem_insert_of_mem (hs x hx)
    | exact absurd ‹_ < broadcastCap› (by simp [broadcastCap])
    | (intro h; simp at h; done)
    | (intro _; simp [setH, *]; done)
    | (intro x hx
       have h0 := hsn (he (hc.1 c (by simp [*, HPc.crit])))
       simp [setH, h0] at hx))

theorem inv_step {a : Action} {s s' : State} (hi : Inv s) (h : step a s = some s') : Inv s' := by
  cases a with
  | upgradeErr => simp [step] at h; exact h ▸ hi
  | h c x => exact inv_handleConnections hi h
  | d x => exact inv_handleMessages hi h
  | handoff c => exact inv_handoff hi h

theorem inv_run {acts : List Action} {s s' : State} (hi : Inv s) (h : run acts s = some s') :
    Inv s' := by
  induction acts generalizing s with
  | nil => simp [run] at h; exact h ▸ hi
  | cons a rest ih =>
    simp only [run] at h
    cases hs : step a s with
    | none => simp [hs] at h
    | some t => rw [hs] at h; exact ih (inv_step hi hs) h

theorem inv_of_reachable {s : State} (h : Reachable s) : Inv s := by
  obtain ⟨acts, h⟩ := h
  exact inv_run inv_init h

/-! ## Runs and traces -/

theorem run_append (a b : List Action) (s : State) :
    run (a ++ b) s = (run a s).bind (run b) := by
  induction a generalizing s with
  | nil => simp [run]
  | cons x rest ih =>
    simp only [List.cons_append, run]
    cases step x s with
    | none => simp
    | some t => simp [ih]

theorem trace_append (a b : List Action) (s s1 : State) (h : run a s = some s1) :
    trace (a ++ b) s = trace a s ++ trace b s1 := by
  induction a generalizing s with
  | nil => simp [run] at h; subst h; simp [trace]
  | cons x rest ih =>
    simp only [run] at h
    simp only [List.cons_append, trace]
    cases hs : step x s with
    | none => simp [hs] at h
    | some t => rw [hs] at h; simp [ih t h]

theorem run_snoc {acts : List Action} {a : Action} {s s' : State}
    (h : run (acts ++ [a]) s = some s') : ∃ t, run acts s = some t ∧ step a t = some s' := by
  rw [run_append] at h
  cases hr : run acts s with
  | none => simp [hr] at h
  | some t =>
    refine ⟨t, rfl, ?_⟩
    simp only [hr, Option.some_bind, run] at h
    cases hs : step a t with
    | none => simp [hs] at h
    | some u => simpa [hs] using h

theorem trace_snoc {acts : List Action} {a : Action} {s t t' : State}
    (h : run acts s = some t) (hs : step a t = some t') :
    trace (acts ++ [a]) s = trace acts s ++ obs a t := by
  rw [trace_append acts [a] s t h]
  simp [trace, hs]

theorem run_stateAfter {acts : List Action} (h : (run acts init).isSome = true) :
    run acts init = some (stateAfter acts) := by
  unfold stateAfter
  cases hr : run acts init with
  | none => simp [hr] at h
  | some t => simp

theorem run_after {a b : List Action} {s : State} (ha : (run a init).isSome = true)
    (h : run (a ++ b) init = some s) : run b (stateAfter a) = some s := by
  rw [run_append, run_stateAfter ha] at h
  simpa using h

theorem trace_after {a : List Action} (b : List Action) (ha : (run a init).isSome = true) :
    trace (a ++ b) init = trace a init ++ trace b (stateAfter a) :=
  trace_append a b init _ (run_stateAfter ha)

theorem deqs_append (a b : List Ev) : deqs (a ++ b) = deqs a ++ deqs b := by
  induction a with
  | nil => simp [deqs]
  | cons e rest ih => cases e <;> simp [deqs, ih]

theorem writesTo_append (c : Conn) (a b : List Ev) :
    writesTo c (a ++ b) = writesTo c a ++ writesTo c b := by
  induction a with
  | nil => simp [writesTo]
  | cons e rest ih =>
    cases e <;> simp [writesTo, ih]
    split <;> simp

theorem deqs_of_closes {t : List Ev} (h : ∀ e ∈ t, ∃ x, e = Ev.close x) : deqs t = [] := by
  induction t with
  | nil => simp [deqs]
  | cons e rest ih =>
    obtain ⟨x, hx⟩ := h e (by simp)
    subst hx
    simp only [deqs]
    exact ih (fun e he => h e (by simp [he]))

theorem writesTo_of_closes {c : Conn} {t : List Ev} (h : ∀ e ∈ t, ∃ x, e = Ev.close x) :
    writesTo c t = [] := by
  induction t with
  | nil => simp [writesTo]
  | cons e rest ih =>
    obtain ⟨x, hx⟩ := h e (by simp)
    subst hx
    simp only [writesTo]
    exact ih (fun e he => h e (by simp [he]))

theorem upgrades_append (a b : List Action) : upgrades (a ++ b) = upgrades a ++ upgrades b := by
  induction a with
  | nil => simp [upgrades]
  | cons x rest ih =>
    rcases x with _ | ⟨c, y⟩ | _ | _
    · simpa [upgrades] using ih
    · cases y <;> simpa [upgrades] using ih
    · simpa [upgrades] using ih
    · simpa [upgrades] using ih

theorem handler_disp {c : Conn} {x : HAct} {t t' : State}
    (h : handleConnections c x t = some t') : t'.disp = t.disp := by
  unfold handleConnections at h
  split at h <;> try split at h
  all_goals simp at h
  all_goals subst h
  all_goals rfl

theorem handler_clients_of_inPass {c : Conn} {x : HAct} {t t' : State} (hi : Inv t)
    (hp : t.disp.inPass = true) (h : handleConnections c x t = some t') :
    t'.clients = t.clients ∧ t'.disp = t.disp := by
  have hr : t.readers = 1 := by simpa [hp] using hi.readers
  have hw : t.writer = false := by
    cases hw : t.writer
    · rfl
    · have := hi.excl hw; omega
  have hcc : (t.hpc c).crit = false := by
    cases hx : (t.hpc c).crit
    · rfl
    · have := hi.crit.1 c hx; simp [hw] at this
  unfold handleConnections at h
  split at h <;> try split at h
  all_goals simp at h
  all_goals subst h
  all_goals first
    | (exfalso; simp_all [HPc.crit]; done)
    | exact ⟨rfl, rfl⟩

theorem obs_no_deq_write {a : Action} {t : State} : 
    (∀ c x, a = .h c x → ∀ e ∈ obs a t, (∀ m, e ≠ .deq m) ∧ ∀ c m ok, e ≠ .write c m ok) := by
  intro c x ha e he
  subst ha
  unfold obs at he
  split at he <;> try split at he
  all_goals simp_all

/-! ## The dispatcher after a failed write -/

theorem doomed_step {s s' : State} {a : Action} {m : Msg} {c : Conn} {l : List Conn}
    (hi : Inv s) (hd : s.disp = .close m c l ∨ s.disp = .lock m c l)
    (h : step a s = some s') :
    (s'.disp = s.disp ∨ (s.disp = .close m c l ∧ s'.disp = .lock m c l)) ∧
      s'.clients = s.clients ∧ s.closed ⊆ s'.closed ∧
      (∀ x, s.hpc x = .lockDel → s'.hpc x = .lockDel) ∧
      ∀ e ∈ obs a s, ∃ x, e = .close x ∧ (s.hpc x = .close ∨ s.disp = .close m x l) := by
  have hr : s.readers = 1 := by
    have := hi.readers
    rcases hd with hd | hd <;> simpa [hd, DPc.inPass] using this
  have hw : s.writer = false := by
    cases hw : s.writer
    · rfl
    · have := hi.excl hw; omega
  have hnc : ∀ x, (s.hpc x).crit = false := by
    intro x
    cases hx : (s.hpc x).crit
    · rfl
    · have := hi.crit.1 x hx; simp [hw] at this
  cases a with
  | upgradeErr =>
    simp [step] at h; subst h
    simp [obs]
  | handoff c' =>
    simp only [step] at h
    unfold handoff at h
    split at h <;> try split at h
    all_goals simp at h
    rename_i h2 _
    rcases hd with hd | hd <;> simp [hd] at h2
  | d x =>
    simp only [step] at h
    unfold handleMessages at h
    rcases hd with hd | hd
    · split at h <;> try split at h
      all_goals simp at h
      all_goals simp_all [obs]
      all_goals subst h
      all_goals simp [Finset.subset_insert]
    · split at h <;> try split at h
      all_goals simp at h
      all_goals simp_all [obs]
  | h c' x =>
    simp only [step] at h
    have hcc := hnc c'
    unfold handleConnections at h
    split at h <;> try split at h
    all_goals simp at h
    all_goals subst h
    all_goals first
      | (exfalso; simp_all [HPc.crit, broadcastCap]; done)
      | (refine ⟨Or.inl rfl, rfl, ?_, ?_, ?_⟩
         · simp [setH, Finset.subset_insert]
         · intro x hx
           by_cases hxc : x = c'
           · subst hxc; simp_all
           · simp [setH, hxc, hx]
         · simp_all [obs])

theorem doomed_run {acts : List Action} {s s' : State} {m : Msg} {c : Conn} {l : List Conn}
    (hi : Inv s) (hd : s.disp = .close m c l ∨ s.disp = .lock m c l)
    (h : run acts s = some s') :
    (s'.disp = .close m c l ∨ s'.disp = .lock m c l) ∧
      (s.disp = .lock m c l → s'.disp = .lock m c l) ∧
      s'.readers = 1 ∧ s'.clients = s.clients ∧ s.closed ⊆ s'.closed ∧
      (∀ x, s.hpc x = .lockDel → s'.hpc x = .lockDel) ∧
      ∀ e ∈ trace acts s, ∃ x, e = .close x ∧ (s.hpc x ≠ .lockDel ∨ s.disp = .close m x l) := by
  induction acts generalizing s with
  | nil =>
    simp [run] at h; subst h
    refine ⟨hd, id, ?_, rfl, Finset.Subset.refl _, fun _ hx => hx, by simp [trace]⟩
    have := hi.readers
    rcases hd with hd | hd <;> simpa [hd, DPc.inPass] using this
  | cons a rest ih =>
    simp only [run] at h
    cases hs : step a s with
    | none => simp [hs] at h
    | some t =>
      rw [hs] at h
      simp only [Option.some_bind] at h
      obtain ⟨h1, h2, h3, h4, h5⟩ := doomed_step hi hd hs
      have hd' : t.disp = .close m c l ∨ t.disp = .lock m c l := by
        rcases h1 with h1 | h1
        · rw [h1]; exact hd
        · exact Or.inr h1.2
      obtain ⟨i1, i2, i3, i4, i5, i6, i7⟩ := ih (inv_step hi hs) hd' h
      refine ⟨i1, ?_, i3, i4.trans h2, h3.trans i5, fun x hx => i6 x (h4 x hx), ?_⟩
      · intro hl
        apply i2
        rcases h1 with h1 | h1
        · rw [h1]; exact hl
        · exact h1.2
      · intro e he
        simp only [trace, hs, List.mem_append] at he
        rcases he with he | he
        · obtain ⟨x, hx, hx'⟩ := h5 e he
          refine ⟨x, hx, ?_⟩
          rcases hx' with hx' | hx'
          · left; rw [hx']; simp
          · right; exact hx'
        · obtain ⟨x, hx, hx'⟩ := i7 e he
          refine ⟨x, hx, ?_⟩
          rcases hx' with hx' | hx'
          · left; intro hc; exact hx' (h4 x hc)
          · rcases h1 with h1 | h1
            · right; rw [← h1]; exact hx'
            · rw [h1.2] at hx'; cases hx'

/-! ## C1: fault isolation -/

/-- C1: from every reachable state in which the dispatcher stands at the write
of line 53 for recipient `c`, if that write fails then in every continuation of
the run the failed write is the only call of `WriteMessage` (no other member
is attempted any more), nothing is deleted from the registry, the registry is
what it was and still holds `c`, and the read lock stays held. -/
theorem write_failure_ends_pass (s : State) (hs : Reachable s) (m : Msg) (c : Conn)
    (l : List Conn) (hd : s.disp = .write m c l) (acts : List Action) (s' : State)
    (h : run (.d .writeErr :: acts) s = some s') :
    (∀ x m' ok, Ev.write x m' ok ∈ trace (.d .writeErr :: acts) s →
        x = c ∧ m' = m ∧ ok = false) ∧
      (∀ x, Ev.delete x ∉ trace (.d .writeErr :: acts) s) ∧
      s'.clients = s.clients ∧ c ∈ s'.clients ∧ s'.readers = 1 := by
  have hi := inv_of_reachable hs
  have hst : step (.d .writeErr) s = some { s with disp := .close m c l } := by
    simp [step, handleMessages, hd]
  have hi' := inv_step hi hst
  simp only [run, hst, Option.some_bind] at h
  obtain ⟨_, _, hr, hc, _, _, he⟩ := doomed_run hi' (Or.inl rfl) h
  have ht : trace (.d .writeErr :: acts) s =
      Ev.write c m false :: trace acts { s with disp := .close m c l } := by
    simp [trace, hst, obs, hd]
  have hmem : c ∈ s.clients := hi.seenSub c (by simp [hd, DPc.seen])
  rw [ht]
  refine ⟨fun x m' ok hm => ?_, fun x hm => ?_, hc, by rw [hc]; exact hmem, hr⟩
  · rcases List.mem_cons.1 hm with hm | hm
    · cases hm; exact ⟨rfl, rfl, rfl⟩
    · obtain ⟨y, hy, _⟩ := he _ hm
      cases hy
  · rcases List.mem_cons.1 hm with hm | hm
    · cases hm
    · obtain ⟨y, hy, _⟩ := he _ hm
      cases hy

/-- C1 at registry {1, 2} with the write to 1 failing: connection 2 is in the registry
and is never written. -/
theorem write_failure_ends_pass_witness :
    Reachable (stateAfter writeBothActs) ∧
      (stateAfter writeBothActs).disp = .write [104, 105] 1 [] ∧
      2 ∈ (stateAfter failActs).clients ∧ 1 ∈ (stateAfter failActs).clients ∧
      ∀ m ok, Ev.write 2 m ok ∉ trace [.d .writeErr, .d .line] (stateAfter writeBothActs) := by
  have hr : Reachable (stateAfter writeBothActs) :=
    ⟨writeBothActs, run_stateAfter (by decide)⟩
  have h := write_failure_ends_pass (stateAfter writeBothActs) hr [104, 105] 1 []
    (by decide) [Action.d DAct.line] (stateAfter failActs) (by rfl)
  refine ⟨hr, by decide, by decide, by decide, fun m ok hm => ?_⟩
  exact absurd (h.1 2 m ok hm).1 (by decide)

/-! ## C2: the dispatcher after a recipient failure -/

/-- C2: from every reachable state in which the dispatcher stands at the write
of line 53, if that write fails then the dispatcher runs line 55 and arrives at
the `mu.Lock()` of line 56 with its read lock held; and in every continuation
it is at line 55 or at line 56, still holding its read lock: it never returns
to line 49, and at line 56 none of its steps is enabled. -/
theorem dispatcher_halts_after_write_failure (s : State) (hs : Reachable s) (m : Msg)
    (c : Conn) (l : List Conn) (hd : s.disp = .write m c l) :
    (∃ s1, run [.d .writeErr, .d .line] s = some s1 ∧ s1.disp = .lock m c l ∧
        s1.readers = 1) ∧
      ∀ acts s', run (.d .writeErr :: acts) s = some s' →
        (s'.disp = .close m c l ∨ s'.disp = .lock m c l) ∧ s'.readers = 1 ∧
          s'.disp ≠ .recv ∧ (s'.disp = .lock m c l → ∀ a, handleMessages a s' = none) := by
  have hi := inv_of_reachable hs
  have hst : step (.d .writeErr) s = some { s with disp := .close m c l } := by
    simp [step, handleMessages, hd]
  have hi' := inv_step hi hst
  have hr : s.readers = 1 := by simpa [hd, DPc.inPass] using hi.readers
  refine ⟨⟨{ s with closed := insert c s.closed, disp := .lock m c l }, ?_, rfl, hr⟩, ?_⟩
  · simp [run, step, handleMessages, hd]
  · intro acts s' h
    simp only [run, hst, Option.some_bind] at h
    obtain ⟨h1, _, h3, _⟩ := doomed_run hi' (Or.inl rfl) h
    refine ⟨h1, h3, ?_, ?_⟩
    · rcases h1 with h1 | h1 <;> simp [h1]
    · intro hl a
      cases a <;> simp [handleMessages, hl, h3]

/-- C2 at registry {1} with the write to 1 failing: the dispatcher stands at line 56
with its read lock held and has no enabled step. -/
theorem dispatcher_halts_after_write_failure_witness :
    Reachable (stateAfter writeActs) ∧ (stateAfter writeActs).disp = .write [104, 105] 1 [] ∧
      (stateAfter closeActs).disp = .lock [104, 105] 1 [] ∧
      (stateAfter closeActs).readers = 1 ∧
      ∀ a, handleMessages a (stateAfter closeActs) = none :=
  have hr : Reachable (stateAfter writeActs) := ⟨writeActs, run_stateAfter (by decide)⟩
  have h := (dispatcher_halts_after_write_failure (stateAfter writeActs) hr
    [104, 105] 1 [] (by decide)).2 [Action.d DAct.line] (stateAfter closeActs) (by rfl)
  ⟨hr, by decide, by decide, h.2.1, h.2.2.2 (by decide)⟩

/-! ## C3: one broadcast pass -/

theorem written_append {m : Msg} {S : Conn → Prop} {W E : List Ev} (h : Written m S W)
    (hE : ∀ c m' ok, Ev.write c m' ok ∉ E) : Written m S (W ++ E) := by
  obtain ⟨h1, h2⟩ := h
  refine ⟨fun c m' ok hm => ?_, fun c hc => ?_⟩
  · rcases List.mem_append.1 hm with hm | hm
    · exact h1 c m' ok hm
    · exact absurd hm (hE c m' ok)
  · rw [List.count_append, h2 c hc, List.count_eq_zero_of_not_mem (hE c m true)]

theorem written_snoc {m : Msg} {seen : List Conn} {W : List Ev} {c : Conn}
    (h : Written m (fun x => x ∈ seen) W) (hc : c ∉ seen) :
    Written m (fun x => x ∈ c :: seen) (W ++ [.write c m true]) := by
  obtain ⟨h1, h2⟩ := h
  refine ⟨fun x m' ok hm => ?_, fun x hx => ?_⟩
  · rcases List.mem_append.1 hm with hm | hm
    · obtain ⟨a, b, d⟩ := h1 x m' ok hm
      exact ⟨a, b, List.mem_cons_of_mem _ d⟩
    · simp at hm
      obtain ⟨rfl, rfl, rfl⟩ := hm
      simp
  · rw [List.count_append]
    rcases List.mem_cons.1 hx with hx | hx
    · subst hx
      have : W.count (.write x m true) = 0 :=
        List.count_eq_zero_of_not_mem fun hm => hc (h1 x m true hm).2.2
      simp [this]
    · have hne : x ≠ c := fun e => hc (e ▸ hx)
      rw [h2 x hx]
      simp [List.count_cons, hne.symm]

theorem written_congr {m : Msg} {S S' : Conn → Prop} {W : List Ev} (hS : ∀ c, S c ↔ S' c)
    (h : Written m S W) : Written m S' W :=
  ⟨fun c m' ok hm => (h.1 c m' ok hm).imp_right (And.imp_right (hS c).1),
    fun c hc => h.2 c ((hS c).2 hc)⟩

theorem pass_step {m : Msg} {cl : Finset Conn} {t t' : State} {W : List Ev} {a : Action}
    (hi : Inv t) (hp : PassInv m cl t W) (h : step a t = some t')
    (hq : ∀ m', Ev.deq m' ∉ obs a t) : PassInv m cl t' (W ++ obs a t) := by
  cases a with
  | upgradeErr =>
    simp [step] at h; subst h
    simpa [obs] using hp
  | handoff c =>
    exfalso
    simp only [step] at h
    unfold handoff at h
    split at h <;> try split at h
    all_goals simp at h
    rename_i _ _ m' h1 _ _
    exact hq m' (by simp [obs, h1])
  | h c x =>
    simp only [step] at h
    have hE : ∀ c' m' ok, Ev.write c' m' ok ∉ obs (.h c x) t :=
      fun c' m' ok he => (obs_no_deq_write c x rfl _ he).2 c' m' ok rfl
    have hd := handler_disp h
    unfold PassInv at hp ⊢
    rw [hd]
    split at hp
    · have hc := (handler_clients_of_inPass hi (by simp [*, DPc.inPass]) h).1
      exact ⟨hp.1, hc ▸ hp.2.1, written_append hp.2.2 hE⟩
    · have hc := (handler_clients_of_inPass hi (by simp [*, DPc.inPass]) h).1
      exact ⟨hp.1, hc ▸ hp.2.1, written_append hp.2.2 hE⟩
    · have hc := (handler_clients_of_inPass hi (by simp [*, DPc.inPass]) h).1
      exact ⟨hp.1, hc ▸ hp.2.1, written_append hp.2.2 hE⟩
    · exact hp.elim
    · trivial
  | d x =>
    have hs := hi.seenSub
    have hn := hi.seenNodup
    have hr := hi.readers
    have hl := hi.pastLock
    simp only [step] at h
    unfold handleMessages at h
    split at h <;> try split at h
    all_goals simp at h
    all_goals subst h
    all_goals simp_all [PassInv, obs, DPc.seen, DPc.inPass, DPc.pastLock]
    · exact written_congr (fun c => ⟨fun hc => hs c hc, fun hc => by rename_i he; exact he c hc⟩)
        hp.2.2
    · simpa using written_snoc hp.2.2 hn.1

theorem pass_run {m : Msg} {s : State} (hi : Inv s) (hd : s.disp = .range m [])
    (acts : List Action) (t : State) (h : run acts s = some t)
    (hq : ∀ m', Ev.deq m' ∉ trace acts s) : PassInv m s.clients t (trace acts s) := by
  induction acts using List.reverseRecOn generalizing t with
  | nil =>
    simp [run] at h; subst h
    simp [PassInv, hd, trace, Written]
  | append_singleton rest a ih =>
    obtain ⟨u, hu, hst⟩ := run_snoc h
    rw [trace_snoc hu hst] at hq ⊢
    refine pass_step (inv_run hi hu) (ih u hu fun m' hm => hq m' ?_) hst fun m' hm => hq m' ?_
    · exact List.mem_append_left _ hm
    · exact List.mem_append_right _ hm

theorem pass_progress {m : Msg} (order : List Conn) (s : State) (seen : List Conn)
    (hd : s.disp = .range m seen) (hn : order.Nodup) (hdis : ∀ c ∈ order, c ∉ seen)
    (hsub : ∀ c ∈ order, c ∈ s.clients) (hall : ∀ c ∈ s.clients, c ∈ seen ∨ c ∈ order) :
    run (passActs order) s = some { s with disp := .runlock m } ∧
      trace (passActs order) s = order.map fun c => Ev.write c m true := by
  induction order generalizing s seen with
  | nil =>
    have : ∀ c ∈ s.clients, c ∈ seen := fun c hc => by simpa using hall c hc
    constructor
    · simp [passActs, run, step, handleMessages, hd, if_pos this]
    · simp [passActs, trace, step, handleMessages, hd, if_pos this, obs]
  | cons c rest ih =>
    have h1 : c ∈ s.clients ∧ c ∉ seen := ⟨hsub c (by simp), hdis c (by simp)⟩
    obtain ⟨hc, hn'⟩ := List.nodup_cons.1 hn
    obtain ⟨hr, ht⟩ := ih { s with disp := .range m (c :: seen) } (c :: seen) rfl hn'
      (fun x hx => by
        intro hm
        rcases List.mem_cons.1 hm with hm | hm
        · exact hc (hm ▸ hx)
        · exact hdis x (by simp [hx]) hm)
      (fun x hx => hsub x (by simp [hx]))
      (fun x hx => by
        rcases hall x hx with hm | hm
        · exact Or.inl (by simp [hm])
        · rcases List.mem_cons.1 hm with hm | hm
          · exact Or.inl (by simp [hm])
          · exact Or.inr hm)
    constructor
    · simpa [passActs, run, step, handleMessages, hd, h1] using hr
    · simp [passActs, trace, step, handleMessages, hd, h1, obs, ht]

/-- From the dequeue to line 49 again, with `mu` free. -/
theorem dequeue_pass {s : State} {c0 : Conn} {m : Msg} (hi : Inv s) (hd : s.disp = .recv)
    (hc : s.hpc c0 = .send m) (hw : s.writer = false) (order : List Conn) (hn : order.Nodup)
    (hm : ∀ c, c ∈ order ↔ c ∈ s.clients) :
    ∃ s', run (.handoff c0 :: .d .line :: (passActs order ++ [.d .line])) s = some s' ∧
      s'.disp = .recv ∧ s'.readers = 0 ∧ s'.clients = s.clients ∧
      trace (.handoff c0 :: .d .line :: (passActs order ++ [.d .line])) s =
        .deq m :: order.map fun c => Ev.write c m true := by
  have hq := hi.queue
  have hr : s.readers = 0 := by simpa [hd, DPc.inPass] using hi.readers
  let s2 : State := { setH s c0 .read with readers := 1, disp := .range m [] }
  have h1 : step (.handoff c0) s = some { setH s c0 .read with disp := .rlock m } := by
    simp [step, handoff, hc, hd, hq]
  have h2 : step (.d .line) { setH s c0 .read with disp := .rlock m } = some s2 := by
    simp [step, handleMessages, setH, hw, hr, s2]
  obtain ⟨h3, h4⟩ := pass_progress (m := m) order s2 [] rfl hn (by simp)
    (fun c hc => (hm c).1 hc) (fun c hc => Or.inr ((hm c).2 hc))
  have h5 : step (.d .line) { s2 with disp := .runlock m } =
      some { s2 with readers := 0, disp := .recv } := by
    simp [step, handleMessages, s2]
  refine ⟨{ s2 with readers := 0, disp := .recv }, ?_, rfl, rfl, rfl, ?_⟩
  · simp only [run, h1, h2, Option.some_bind]
    rw [run_append, h3]
    simp [run, h5]
  · simp only [trace, h1, h2]
    rw [trace_append _ _ _ _ h3, h4]
    simp only [trace, h5]
    simp [obs, hc, hd, s2, setH]

/-- A handler that holds `mu` releases it within two of its own steps, which
touch neither the dispatcher nor any other handler. -/
theorem release {s : State} {c0 : Conn} {m : Msg} (hi : Inv s) (hd : s.disp = .recv)
    (hc : s.hpc c0 = .send m) (hw : s.writer = true) :
    ∃ pre t, pre.length ≤ 2 ∧ run pre s = some t ∧ t.disp = .recv ∧ t.hpc c0 = .send m ∧
      t.writer = false ∧ deqs (trace pre s) = [] ∧ ∀ c, writesTo c (trace pre s) = [] := by
  obtain ⟨x, hx⟩ := hi.crit.2.2 hw
  have hne : c0 ≠ x := by
    intro e; subst e; simp [hc, HPc.crit] at hx
  cases hp : s.hpc x with
  | reg =>
    refine ⟨[.h x .line, .h x .line],
      { setH { setH s x .unlockReg with clients := insert x s.clients } x .read with
        writer := false }, by simp, ?_, ?_, ?_, ?_, ?_, ?_⟩
    all_goals simp [run, trace, step, handleConnections, hp, setH, hd, hne, hc, obs, deqs, writesTo]
  | unlockReg =>
    refine ⟨[.h x .line], { setH s x .read with writer := false }, by simp, ?_, ?_, ?_, ?_, ?_, ?_⟩
    all_goals simp [run, trace, step, handleConnections, hp, setH, hd, hne, hc, obs, deqs, writesTo]
  | del =>
    refine ⟨[.h x .line, .h x .line],
      { setH { setH s x .unlockDel with clients := delete s.clients x } x .close with
        writer := false }, by simp, ?_, ?_, ?_, ?_, ?_, ?_⟩
    all_goals simp [run, trace, step, handleConnections, hp, setH, hd, hne, hc, obs, deqs, writesTo]
  | unlockDel =>
    refine ⟨[.h x .line], { setH s x .close with writer := false }, by simp, ?_, ?_, ?_, ?_, ?_, ?_⟩
    all_goals simp [run, trace, step, handleConnections, hp, setH, hd, hne, hc, obs, deqs, writesTo]
  | _ => simp [hp, HPc.crit] at hx

theorem not_mem_of_deqs_nil {T : List Ev} (h : deqs T = []) (m : Msg) : Ev.deq m ∉ T := by
  induction T with
  | nil => simp
  | cons e rest ih =>
    cases e <;> simp_all [deqs]

theorem wait_step {t t' : State} {W : List Ev} {a : Action}
    (hq : (∃ m, t.disp = .rlock m) → ∀ c m' ok, Ev.write c m' ok ∉ W)
    (h : step a t = some t') (hd : ∀ m', Ev.deq m' ∉ obs a t) :
    (∃ m, t'.disp = .rlock m) → ∀ c m' ok, Ev.write c m' ok ∉ W ++ obs a t := by
  intro ⟨m, hm⟩
  cases a with
  | upgradeErr =>
    simp [step] at h; subst h
    simpa [obs] using hq ⟨m, hm⟩
  | handoff c =>
    exfalso
    simp only [step] at h
    unfold handoff at h
    split at h <;> try split at h
    all_goals simp at h
    rename_i _ _ m' h1 _ _
    exact hd m' (by simp [obs, h1])
  | h c x =>
    simp only [step] at h
    have hdisp := handler_disp h
    intro c' m' ok hmem
    rcases List.mem_append.1 hmem with hmem | hmem
    · exact hq ⟨m, hdisp ▸ hm⟩ c' m' ok hmem
    · exact (obs_no_deq_write c x rfl _ hmem).2 c' m' ok rfl
  | d x =>
    simp only [step] at h
    unfold handleMessages at h
    split at h <;> try split at h
    all_goals simp at h
    all_goals subst h
    all_goals simp at hm
    rename_i hq'
    exact absurd (by simp [obs, hq', hm]) (hd m)

theorem wait_run {s t : State} (acts : List Action)
    (h : run acts s = some t) (hq : ∀ m', Ev.deq m' ∉ trace acts s) :
    (∃ m', t.disp = .rlock m') → ∀ c m' ok, Ev.write c m' ok ∉ trace acts s := by
  induction acts using List.reverseRecOn generalizing t with
  | nil => simp [trace]
  | append_singleton rest a ih =>
    obtain ⟨u, hu, hst⟩ := run_snoc h
    rw [trace_snoc hu hst] at hq ⊢
    exact wait_step (ih hu fun m' hm => hq m' (List.mem_append_left _ hm)) hst
      fun m' hm => hq m' (List.mem_append_right _ hm)

theorem pass_after_dequeue {s : State} {c0 : Conn} {m : Msg} (hi : Inv s)
    (hd : s.disp = .recv) (hc : s.hpc c0 = .send m) (acts1 : List Action) (t : State)
    (acts2 : List Action) (s' : State) (h1 : run (.handoff c0 :: acts1) s = some t)
    (ht : t.disp = .rlock m) (h2 : run (.d .line :: acts2) t = some s')
    (hs' : s'.disp = .runlock m)
    (hq : deqs (trace (.handoff c0 :: (acts1 ++ .d .line :: acts2)) s) = [m]) :
    s'.clients = t.clients ∧
      Written m (fun c => c ∈ t.clients) (trace (.handoff c0 :: (acts1 ++ .d .line :: acts2)) s) := by
  have hst : step (.handoff c0) s = some { setH s c0 .read with disp := .rlock m } := by
    simp [step, handoff, hc, hd, hi.queue]
  simp only [run, hst, Option.some_bind] at h1
  have hi1 := inv_step hi hst
  have hit := inv_run hi1 h1
  have hw : t.writer = false := by
    cases hw : t.writer
    · rfl
    · simp [run, step, handleMessages, ht, hw] at h2
  have hst2 : step (.d .line) t = some { t with readers := t.readers + 1, disp := .range m [] } := by
    simp [step, handleMessages, ht, hw]
  simp only [run, hst2, Option.some_bind] at h2
  have htr : trace (.handoff c0 :: (acts1 ++ .d .line :: acts2)) s =
      Ev.deq m :: (trace acts1 { setH s c0 .read with disp := .rlock m } ++
        trace acts2 { t with readers := t.readers + 1, disp := .range m [] }) := by
    simp only [trace, hst]
    rw [trace_append _ _ _ _ h1]
    simp [trace, hst2, obs, hc, ht]
  rw [htr] at hq ⊢
  simp only [deqs, deqs_append, List.cons.injEq, true_and, List.append_eq_nil] at hq
  have hno1 := wait_run acts1 h1 (not_mem_of_deqs_nil hq.1) ⟨m, ht⟩
  have hp := pass_run (inv_step hit hst2) rfl acts2 s' h2 (not_mem_of_deqs_nil hq.2)
  simp only [PassInv, hs'] at hp
  obtain ⟨-, hcl, hw1, hw2⟩ := hp
  refine ⟨hcl, fun c m' ok hm => ?_, fun c hc => ?_⟩
  · simp only [List.mem_cons, List.mem_append] at hm
    rcases hm with hm | hm | hm
    · cases hm
    · exact absurd hm (hno1 c m' ok)
    · exact hw1 c m' ok hm
  · rw [List.count_cons, List.count_append, List.count_eq_zero_of_not_mem (hno1 c m true),
      hw2 c hc]
    simp

/-- C3: let the dispatcher wait at line 49 and the handler of `c0` stand at
`broadcast <- msg` with any message `m`.  (1) A handler that holds `mu`
releases it within two of its own steps, and none is needed when `mu` is free.
(2) With `mu` free, for every order in which the `range` may yield the keys of
the registry, the dispatcher takes `m`, acquires the read lock, calls
`WriteMessage` once per key of the registry, in that order, with payload `m`,
releases the lock and is back at line 49 with the registry unchanged: an empty
registry gets no write, and the sender, being a key, gets `m` as well.
(3) In every run, however the handlers interleave, in which `m` is the only
message taken, the read lock is acquired in state `t` and the loop has ended:
the registry is the one of `t`, every write since the dequeue went to a key of
it, carried `m` and returned nil, every key got exactly one write, and line 61
releases the lock and returns to line 49 with the registry unchanged. -/
theorem broadcast_completeness (s : State) (hs : Reachable s) (c0 : Conn) (m : Msg)
    (hd : s.disp = .recv) (hc : s.hpc c0 = .send m) :
    (∃ pre t, pre.length ≤ 2 ∧ (s.writer = false → pre = []) ∧ run pre s = some t ∧
        t.disp = .recv ∧ t.hpc c0 = .send m ∧ t.writer = false ∧
        deqs (trace pre s) = [] ∧ ∀ c, writesTo c (trace pre s) = []) ∧
      (s.writer = false → ∀ order : List Conn, order.Nodup →
        (∀ c, c ∈ order ↔ c ∈ s.clients) →
        ∃ s', run (.handoff c0 :: .d .line :: (passActs order ++ [.d .line])) s = some s' ∧
          s'.disp = .recv ∧ s'.readers = 0 ∧ s'.clients = s.clients ∧
          trace (.handoff c0 :: .d .line :: (passActs order ++ [.d .line])) s =
            .deq m :: order.map fun c => Ev.write c m true) ∧
      ∀ acts1 t acts2 s', run (.handoff c0 :: acts1) s = some t → t.disp = .rlock m →
        run (.d .line :: acts2) t = some s' → s'.disp = .runlock m →
        deqs (trace (.handoff c0 :: (acts1 ++ .d .line :: acts2)) s) = [m] →
        s'.clients = t.clients ∧
          (∀ c m' ok, Ev.write c m' ok ∈ trace (.handoff c0 :: (acts1 ++ .d .line :: acts2)) s →
            m' = m ∧ ok = true ∧ c ∈ t.clients) ∧
          (∀ c ∈ t.clients,
            (trace (.handoff c0 :: (acts1 ++ .d .line :: acts2)) s).count (.write c m true) = 1) ∧
          (t.clients = ∅ →
            ∀ c m' ok, Ev.write c m' ok ∉ trace (.handoff c0 :: (acts1 ++ .d .line :: acts2)) s) ∧
          ∃ s'', step (.d .line) s' = some s'' ∧ s''.disp = .recv ∧ s''.readers = 0 ∧
            s''.clients = t.clients := by
  have hi := inv_of_reachable hs
  refine ⟨?_, fun hw order hn hm => dequeue_pass hi hd hc hw order hn hm,
    fun acts1 t acts2 s' h1 ht h2 hs' hq => ?_⟩
  · cases hw : s.writer with
    | false => exact ⟨[], s, by simp, fun _ => rfl, rfl, hd, hc, hw, by simp [trace, deqs],
        by simp [trace, writesTo]⟩
    | true =>
      obtain ⟨pre, t, a, b, c, d, e, f, g⟩ := release hi hd hc hw
      exact ⟨pre, t, a, fun h => by simp at h, b, c, d, e, f, g⟩
  · obtain ⟨hcl, hw1, hw2⟩ := pass_after_dequeue hi hd hc acts1 t acts2 s' h1 ht h2 hs' hq
    have hi' : Inv s' := inv_run (inv_run hi h1) h2
    refine ⟨hcl, hw1, hw2, ?_, ?_⟩
    · intro he c m' ok hm
      have := (hw1 c m' ok hm).2.2
      simp [he] at this
    · have hrd : s'.readers = 1 := by simpa [hs', DPc.inPass] using hi'.readers
      refine ⟨{ s' with readers := s'.readers - 1, disp := .recv }, ?_, rfl, ?_, hcl⟩
      · simp [step, handleMessages, hs']
      · simp [hrd]

/-- C3 at registry {1, 2}: sender 1 with the three bytes "hi!" and the `range`
yielding 2 before 1, and sender 2 with the empty message and the `range`
yielding 1 before 2; each time one write to each connection, the sender
included. -/
theorem broadcast_completeness_witness :
    (Reachable (stateAfter sendBothActs) ∧ (stateAfter sendBothActs).disp = .recv ∧
        (stateAfter sendBothActs).hpc 1 = .send [104, 105, 33] ∧
        ∃ s', run (.handoff 1 :: .d .line :: (passActs [2, 1] ++ [.d .line]))
            (stateAfter sendBothActs) = some s' ∧ s'.disp = .recv ∧
          trace (.handoff 1 :: .d .line :: (passActs [2, 1] ++ [.d .line]))
            (stateAfter sendBothActs) =
            [.deq [104, 105, 33], .write 2 [104, 105, 33] true, .write 1 [104, 105, 33] true]) ∧
      ∃ s', run (.handoff 2 :: .d .line :: (passActs [1, 2] ++ [.d .line]))
          (stateAfter sendEmptyActs) = some s' ∧ s'.disp = .recv ∧
        trace (.handoff 2 :: .d .line :: (passActs [1, 2] ++ [.d .line]))
          (stateAfter sendEmptyActs) = [.deq [], .write 1 [] true, .write 2 [] true] := by
  have hr : Reachable (stateAfter sendBothActs) := ⟨sendBothActs, run_stateAfter (by decide)⟩
  have hr2 : Reachable (stateAfter sendEmptyActs) :=
    ⟨sendEmptyActs, run_stateAfter (by decide)⟩
  have hc : (stateAfter sendBothActs).clients = {1, 2} := by decide
  have hc2 : (stateAfter sendEmptyActs).clients = {2, 1} := by decide
  obtain ⟨s', h1, h2, -, -, h3⟩ :=
    (broadcast_completeness (stateAfter sendBothActs) hr 1 [104, 105, 33] (by decide)
      (by decide)).2.1 (by decide) [2, 1] (by decide) (fun c => by rw [hc]; simp [or_comm])
  obtain ⟨s'', k1, k2, -, -, k3⟩ :=
    (broadcast_completeness (stateAfter sendEmptyActs) hr2 2 [] (by decide)
      (by decide)).2.1 (by decide) [1, 2] (by decide) (fun c => by rw [hc2]; simp [or_comm])
  exact ⟨⟨hr, by decide, by decide, s', h1, h2, h3⟩, s'', k1, k2, k3⟩

/-! ## C4: closed transports in the registry -/

/-- C4: from every reachable state in which the dispatcher stands at the write
of line 53 for recipient `c`, if that write fails and line 55 runs, then in
every continuation of the run `c` is closed and is still a key of the registry:
the dispatcher stays at the `mu.Lock()` of line 56 and nothing is ever
deleted. -/
theorem closed_connection_stays_registered (s : State) (hs : Reachable s) (m : Msg)
    (c : Conn) (l : List Conn) (hd : s.disp = .write m c l) (acts : List Action) (s' : State)
    (h : run (.d .writeErr :: .d .line :: acts) s = some s') :
    c ∈ s'.closed ∧ c ∈ s'.clients ∧ s'.disp = .lock m c l ∧
      ∀ x, Ev.delete x ∉ trace (.d .writeErr :: .d .line :: acts) s := by
  have hi := inv_of_reachable hs
  have hst : step (.d .writeErr) s = some { s with disp := .close m c l } := by
    simp [step, handleMessages, hd]
  have hst2 : step (.d .line) { s with disp := .close m c l } =
      some { s with closed := insert c s.closed, disp := .lock m c l } := by
    simp [step, handleMessages]
  have hi2 := inv_step (inv_step hi hst) hst2
  simp only [run, hst, hst2, Option.some_bind] at h
  obtain ⟨_, hl, _, hc, hcl, _, he⟩ := doomed_run hi2 (Or.inr rfl) h
  have hmem : c ∈ s.clients := hi.seenSub c (by simp [hd, DPc.seen])
  refine ⟨hcl (by simp), by rw [hc]; exact hmem, hl rfl, fun x hm => ?_⟩
  simp only [trace, hst, hst2, obs, hd, List.mem_append, List.mem_cons, List.mem_singleton,
    List.not_mem_nil, or_false, false_or] at hm
  rcases hm with hm | hm | hm
  · cases hm
  · cases hm
  · obtain ⟨y, hy, _⟩ := he _ hm
    cases hy

/-- C4 at registry {1} with the write to 1 failing: after line 55 connection 1 is
closed and a key of the registry. -/
theorem closed_connection_stays_registered_witness :
    Reachable (stateAfter writeActs) ∧ (stateAfter writeActs).disp = .write [104, 105] 1 [] ∧
      1 ∈ (stateAfter closeActs).closed ∧ 1 ∈ (stateAfter closeActs).clients := by
  have hr : Reachable (stateAfter writeActs) := ⟨writeActs, run_stateAfter (by decide)⟩
  have h := closed_connection_stays_registered (stateAfter writeActs) hr [104, 105] 1 []
    (by decide) [] (stateAfter closeActs) (by rfl)
  exact ⟨hr, by decide, h.1, h.2.1⟩

/-! ## C5: unregister and close -/

/-- C5: after the dispatcher's write to connection 1 has failed and the read
of connection 1 has failed as well, every continuation of the run has exactly
one `Close` of connection 1 and no delete of it: the handler stays at the
`mu.Lock()` of line 37 and connection 1 stays in the registry. -/
theorem unregister_never_happens (acts : List Action) (s : State)
    (h : run (closeReadErrActs ++ acts) init = some s) :
    (trace (closeReadErrActs ++ acts) init).count (.close 1) = 1 ∧
      (trace (closeReadErrActs ++ acts) init).count (.delete 1) = 0 ∧
      s.hpc 1 = .lockDel ∧ 1 ∈ s.clients := by
  have h0 : (run closeReadErrActs init).isSome = true := rfl
  have hi : Inv (stateAfter closeReadErrActs) :=
    inv_of_reachable ⟨closeReadErrActs, run_stateAfter h0⟩
  obtain ⟨_, _, _, hc, _, hl, he⟩ :=
    doomed_run (m := [104, 105]) (c := 1) (l := []) hi (Or.inr rfl) (run_after h0 h)
  have ht : trace closeReadErrActs init =
      [.register 1, .deq [104, 105], .write 1 [104, 105] false, .close 1] := by decide
  rw [trace_after acts h0, ht]
  have hcl : Ev.close 1 ∉ trace acts (stateAfter closeReadErrActs) := by
    intro hm
    obtain ⟨x, hx, hx'⟩ := he _ hm
    cases hx
    rcases hx' with hx' | hx'
    · exact hx' (by decide)
    · revert hx'; decide
  have hdl : Ev.delete 1 ∉ trace acts (stateAfter closeReadErrActs) := by
    intro hm
    obtain ⟨x, hx, _⟩ := he _ hm
    cases hx
  refine ⟨?_, ?_, hl 1 (by decide), by rw [hc]; decide⟩
  · rw [List.count_append, List.count_eq_zero_of_not_mem hcl]; decide
  · rw [List.count_append, List.count_eq_zero_of_not_mem hdl]; decide

/-- C5 with one more step after the two failures. -/
theorem unregister_never_happens_witness :
    (trace (closeReadErrActs ++ [.h 2 .upgrade]) init).count (.close 1) = 1 ∧
      (trace (closeReadErrActs ++ [.h 2 .upgrade]) init).count (.delete 1) = 0 :=
  have h := unregister_never_happens [Action.h 2 HAct.upgrade] _
    (run_stateAfter (by decide))
  ⟨h.1, h.2.1⟩

/-! ## C6: unregistration after a failed read -/

/-- C6: with registry {1, 2}, after the dispatcher's write to 1 has failed and
line 55 has run, the read of connection 2 fails.  In every continuation of the
run the registry still has its two keys and holds 2, the handler of 2 stays at
the `mu.Lock()` of line 37, and nothing is ever deleted. -/
theorem read_failure_never_unregisters (acts : List Action) (s : State)
    (h : run (failReadErrActs ++ acts) init = some s) :
    s.clients.card = 2 ∧ 2 ∈ s.clients ∧ s.hpc 2 = .lockDel ∧
      ∀ x, Ev.delete x ∉ trace (failReadErrActs ++ acts) init := by
  have h0 : (run failReadErrActs init).isSome = true := rfl
  have hi : Inv (stateAfter failReadErrActs) :=
    inv_of_reachable ⟨failReadErrActs, run_stateAfter h0⟩
  obtain ⟨_, _, _, hc, _, hl, he⟩ :=
    doomed_run (m := [104, 105]) (c := 1) (l := []) hi (Or.inr rfl) (run_after h0 h)
  have ht : trace failReadErrActs init =
      [.register 1, .register 2, .deq [104, 105], .write 1 [104, 105] false, .close 1] := by
    decide
  rw [trace_after acts h0, ht]
  refine ⟨by rw [hc]; decide, by rw [hc]; decide, hl 2 (by decide), fun x hm => ?_⟩
  simp at hm
  obtain ⟨y, hy, _⟩ := he _ hm
  cases hy

/-- C6 with a further connection accepted afterwards: the registry still has
its two keys, holds 2, and the handler of 2 is still at line 37. -/
theorem read_failure_never_unregisters_witness :
    (stateAfter (failReadErrActs ++ [.h 3 .upgrade])).clients.card = 2 ∧
      2 ∈ (stateAfter (failReadErrActs ++ [.h 3 .upgrade])).clients ∧
      (stateAfter (failReadErrActs ++ [.h 3 .upgrade])).hpc 2 = .lockDel :=
  have h := read_failure_never_unregisters [Action.h 3 HAct.upgrade] _
    (run_stateAfter (by decide))
  ⟨h.1, h.2.1, h.2.2.1⟩

/-! ## C7: registration -/

theorem fresh_step {s s' : State} {a : Action} (h : step a s = some s') :
    (∀ c, s'.hpc c ≠ .fresh ↔ (s.hpc c ≠ .fresh ∨ c ∈ upgrades [a])) ∧
      (∀ c ∈ upgrades [a], s.hpc c = .fresh) ∧
      ((∀ c, a ≠ .h c .readErr) → (∀ c, (s.hpc c).alive = true) →
        ∀ c, (s'.hpc c).alive = true) := by
  cases a with
  | upgradeErr => simp [step] at h; subst h; simp [upgrades]
  | d x =>
    simp only [step] at h
    unfold handleMessages at h
    split at h <;> try split at h
    all_goals simp at h
    all_goals subst h
    all_goals simp [upgrades]
  | handoff c' =>
    simp only [step] at h
    unfold handoff at h
    split at h <;> try split at h
    all_goals simp at h
    subst h
    rename_i _ _ m h1 _ _
    refine ⟨fun c => ?_, by simp [upgrades], fun _ ha c => ?_⟩
    · by_cases hcc : c = c'
      · subst hcc; simp [setH, upgrades, h1]
      · simp [setH, hcc, upgrades]
    · by_cases hcc : c = c'
      · subst hcc; simp [setH, HPc.alive]
      · simpa [setH, hcc] using ha c
  | h c' x =>
    simp only [step] at h
    unfold handleConnections at h
    split at h <;> try split at h
    all_goals simp at h
    all_goals subst h
    all_goals refine ⟨fun c => ?_, ?_, fun hne ha c => ?_⟩
    all_goals first
      | (exfalso; have := ha c'; simp_all [HPc.alive]; done)
      | (by_cases hcc : c = c'
         · subst hcc; simp_all [setH, upgrades, HPc.alive]
         · have := ha c; simp_all [setH, upgrades, HPc.alive])
      | (by_cases hcc : c = c'
         · subst hcc; simp_all [setH, upgrades, HPc.alive]
         · simp_all [setH, upgrades, HPc.alive])
      | simp_all [upgrades]

theorem fresh_run (acts : List Action) (s : State) (h : run acts init = some s) :
    (upgrades acts).Nodup ∧ (∀ c, s.hpc c ≠ .fresh ↔ c ∈ upgrades acts) ∧
      ((∀ c, Action.h c .readErr ∉ acts) → ∀ c, (s.hpc c).alive = true) := by
  induction acts using List.reverseRecOn generalizing s with
  | nil =>
    simp [run] at h; subst h
    simp [upgrades, init, HPc.alive]
  | append_singleton rest a ih =>
    obtain ⟨t, ht, hst⟩ := run_snoc h
    obtain ⟨i1, i2, i3⟩ := ih t ht
    obtain ⟨f1, f2, f3⟩ := fresh_step hst
    rw [upgrades_append]
    refine ⟨?_, fun c => ?_, fun hne => ?_⟩
    · rw [List.nodup_append]
      refine ⟨i1, ?_, ?_⟩
      · rcases a with _ | ⟨c, y⟩ | _ | _ <;> try simp [upgrades]
        cases y <;> simp [upgrades]
      · intro c hc1 hc2
        exact (i2 c).2 hc1 (f2 c hc2)
    · rw [f1 c, i2 c, List.mem_append]
    · apply f3
      · intro c hc; exact hne c (by simp [hc])
      · exact i3 fun c hc => hne c (by simp [hc])

/-- C7: in every run from the initial state, with the empty registry, in
which no read fails and every connection that line 23 returned has passed the
store of line 31, the connections returned are pairwise distinct, the registry
holds exactly them, and its size is the number of successful upgrades. -/
theorem registration (acts : List Action) (s : State) (h : run acts init = some s)
    (hread : ∀ c, Action.h c .readErr ∉ acts)
    (hreg : ∀ c ∈ upgrades acts, s.hpc c ≠ .lockReg ∧ s.hpc c ≠ .reg) :
    (upgrades acts).Nodup ∧ (∀ c, c ∈ s.clients ↔ c ∈ upgrades acts) ∧
      s.clients.card = (upgrades acts).length := by
  have hi : Inv s := inv_of_reachable ⟨acts, h⟩
  obtain ⟨h1, h2, h3⟩ := fresh_run acts s h
  have hmem : ∀ c, c ∈ s.clients ↔ c ∈ upgrades acts := by
    intro c
    rw [hi.mem c, ← h2 c]
    constructor
    · intro hm hf; simp [hf, HPc.member] at hm
    · intro hf
      have ha := h3 hread c
      have hr := hreg c ((h2 c).1 hf)
      revert hf ha hr
      cases s.hpc c <;> simp [HPc.member, HPc.alive]
  refine ⟨h1, hmem, ?_⟩
  have : s.clients = (upgrades acts).toFinset := by
    ext c; simp [hmem]
  rw [this, List.toFinset_card_of_nodup h1]

/-- C7 with three connections registering in interleaved order. -/
theorem registration_witness :
    run registerActs init = some (stateAfter registerActs) ∧
      upgrades registerActs = [1, 2, 3] ∧
      (∀ c, c ∈ (stateAfter registerActs).clients ↔ c ∈ upgrades registerActs) ∧
      (stateAfter registerActs).clients.card = 3 := by
  have hr : run registerActs init = some (stateAfter registerActs) :=
    run_stateAfter (by decide)
  have h := registration registerActs (stateAfter registerActs) hr
    (fun c => by simp [registerActs]) (by decide)
  exact ⟨hr, by decide, h.2.1, h.2.2⟩

/-! ## C8: dispatch order -/

/-- C8: messages `[1]` and `[2]` are taken from the queue in this order and
connection 2 stays registered and no write to it fails, yet in every
continuation of the run connection 2 has been written `[1]` only. -/
theorem second_message_never_written (acts : List Action) (s : State)
    (h : run (secondPassActs ++ acts) init = some s) :
    deqs (trace (secondPassActs ++ acts) init) = [[1], [2]] ∧
      writesTo 2 (trace (secondPassActs ++ acts) init) = [[1]] ∧
      2 ∈ s.clients ∧ ∀ m, Ev.write 2 m false ∉ trace (secondPassActs ++ acts) init := by
  have h0 : (run secondPassActs init).isSome = true := rfl
  have hi : Inv (stateAfter secondPassActs) :=
    inv_of_reachable ⟨secondPassActs, run_stateAfter h0⟩
  obtain ⟨_, _, _, hc, _, _, he⟩ :=
    doomed_run (m := [2]) (c := 1) (l := []) hi (Or.inl rfl) (run_after h0 h)
  have hcl : ∀ e ∈ trace acts (stateAfter secondPassActs), ∃ x, e = Ev.close x :=
    fun e hm => (he e hm).imp fun _ hx => hx.1
  have ht : trace secondPassActs init =
      [.register 1, .register 2, .deq [1], .write 2 [1] true, .write 1 [1] true,
        .deq [2], .write 1 [2] false] := by decide
  rw [trace_after acts h0, ht, deqs_append, writesTo_append, deqs_of_closes hcl,
    writesTo_of_closes hcl]
  refine ⟨by decide, by decide, by rw [hc]; decide, ?_⟩
  intro m hm
  simp at hm
  obtain ⟨x, hx⟩ := hcl _ hm
  cases hx

/-- C8 with one more dispatcher step after the failed write. -/
theorem second_message_never_written_witness :
    deqs (trace (secondPassActs ++ [.d .line]) init) = [[1], [2]] ∧
      writesTo 2 (trace (secondPassActs ++ [.d .line]) init) = [[1]] :=
  have h := second_message_never_written [Action.d DAct.line] _
    (run_stateAfter (by decide))
  ⟨h.1, h.2.1⟩

/-! ## C9: the dispatch queue -/

/-- C9, as stated, fails with nothing pending in the channel: connection 1
stands at `broadcast <- msg`, the channel buffer is empty, the dispatcher is
busy at line 51, and neither a buffered send nor a hand-over is possible. -/
theorem push_waits_for_dispatcher :
    Reachable (stateAfter busyActs) ∧ (stateAfter busyActs).hpc 1 = .send [2] ∧
      (stateAfter busyActs).queue.length = 0 ∧
      (stateAfter busyActs).disp = .rlock [1] ∧
      handleConnections 1 .sendBuf (stateAfter busyActs) = none ∧
      handoff 1 (stateAfter busyActs) = none :=
  ⟨⟨busyActs, run_stateAfter (by decide)⟩, by decide, by decide, by decide, by rfl, by rfl⟩

/-- C9, amended: in every reachable state the buffer of `broadcast` is empty,
and a handler standing at `broadcast <- msg` leaves that line only by the step
in which the dispatcher, standing at line 49, takes that very message. -/
theorem push_completes_only_by_handoff (s : State) (hs : Reachable s) :
    s.queue = [] ∧ ∀ c m a s', s.hpc c = .send m → step a s = some s' → s'.hpc c ≠ .send m →
      a = .handoff c ∧ s.disp = .recv ∧ s'.disp = .rlock m ∧ s'.hpc c = .read := by
  have hi := inv_of_reachable hs
  refine ⟨hi.queue, ?_⟩
  intro c m a s' hc hst hne
  cases a with
  | upgradeErr => simp [step] at hst; subst hst; exact absurd hc hne
  | d x =>
    exfalso; apply hne
    simp only [step] at hst
    unfold handleMessages at hst
    split at hst <;> try split at hst
    all_goals simp at hst
    all_goals subst hst
    all_goals exact hc
  | h c' x =>
    exfalso
    simp only [step] at hst
    by_cases hcc : c = c'
    · subst hcc
      unfold handleConnections at hst
      split at hst <;> try split at hst
      all_goals simp at hst
      all_goals simp_all [broadcastCap]
    · apply hne
      unfold handleConnections at hst
      split at hst <;> try split at hst
      all_goals simp at hst
      all_goals subst hst
      all_goals simp [setH, hcc, hc]
  | handoff c' =>
    simp only [step] at hst
    unfold handoff at hst
    split at hst <;> try split at hst
    all_goals simp at hst
    subst hst
    rename_i _ _ m' h1 h2 h3
    by_cases hcc : c = c'
    · subst hcc
      rw [hc] at h1
      cases h1
      simp [setH, h2]
    · exfalso; apply hne; simp [setH, hcc, hc]

/-- C9, amended, with connection 1 at line 43 and the dispatcher at line 49. -/
theorem push_completes_only_by_handoff_witness :
    Reachable (stateAfter sendActs) ∧ (stateAfter sendActs).queue = [] ∧
      (stateAfter sendActs).hpc 1 = .send [1] ∧
      ∃ s', step (.handoff 1) (stateAfter sendActs) = some s' ∧ s'.disp = .rlock [1] ∧
        s'.hpc 1 = .read := by
  have hr : Reachable (stateAfter sendActs) := ⟨sendActs, run_stateAfter (by decide)⟩
  have h := push_completes_only_by_handoff (stateAfter sendActs) hr
  have hst : step (.handoff 1) (stateAfter sendActs) =
      some (stateAfter (sendActs ++ [.handoff 1])) := by rfl
  have h2 := h.2 1 [1] (.handoff 1) _ (by decide) hst (by decide)
  exact ⟨hr, h.1, by decide, _, hst, h2.2.2.1, h2.2.2.2⟩

/-! ## C10: delete -/

/-- C10: the delete step of line 38 and of line 57 always yields a state,
whose registry is `delete` applied to the registry before; deleting a
connection that is not a key leaves the registry as it is; deleting twice
gives the registry that deleting once gives. -/
theorem delete_total_idempotent (s : State) (c : Conn) :
    (s.hpc c = .del →
        ∃ s', handleConnections c .line s = some s' ∧ s'.clients = delete s.clients c) ∧
      (∀ m l, s.disp = .del m c l →
        ∃ s', handleMessages .line s = some s' ∧ s'.clients = delete s.clients c) ∧
      (c ∉ s.clients → delete s.clients c = s.clients) ∧
      delete (delete s.clients c) c = delete s.clients c := by
  refine ⟨fun h => ?_, fun m l h => ?_, fun h => ?_, ?_⟩
  · simp [handleConnections, h, setH]
  · simp [handleMessages, h]
  · simp [delete, h]
  · simp [delete]

/-- C10 at registry {1, 2} with the handler of 1 at line 38. -/
theorem delete_total_idempotent_witness :
    (stateAfter readErrActs).hpc 1 = .del ∧
      (∃ s', handleConnections 1 .line (stateAfter readErrActs) = some s' ∧
        s'.clients = delete (stateAfter readErrActs).clients 1) ∧
      delete (delete (stateAfter readErrActs).clients 1) 1 = {2} ∧
      delete (delete (stateAfter readErrActs).clients 1) 1 =
        delete (stateAfter readErrActs).clients 1 :=
  ⟨by decide, (delete_total_idempotent (stateAfter readErrActs) 1).1 (by decide), by decide,
    (delete_total_idempotent (stateAfter readErrActs) 1).2.2.2⟩

end Relay
